import Mathlib

/-!
Verification of the shadow-memory poisoning engine in
`src/compiler-rt/lib/asan/asan_poisoning.h` (functions `FastPoisonShadow` and
`FastPoisonShadowPartialRightRedzone`, non-Fuchsia branch).

Shallow embedding conventions:
* shadow memory is a total map `Nat → Nat` holding byte values (< 256);
* `uptr` arithmetic is `Nat` reduced modulo `2 ^ 64` wherever the C code can
  wrap (`uadd`/`usub`); shift amounts `1 << k` are taken on the 64-bit
  unsigned domain;
* `REAL(memset)` is the usual libc byte fill;
* the unbounded `for (uptr i = 3; ; ++i)` loop is embedded with an explicit
  iteration budget (`LOOP_FUEL`), large enough for every execution whose
  block index stays inside the 64-bit domain.
-/

namespace AsanPoisoning

/-- 2^64, the size of the `uptr` domain. -/
def W : Nat := 2 ^ 64

/-- Shadow memory: one byte value per shadow address. -/
abbrev Shadow := Nat → Nat

/-- `uptr` addition (wraps modulo `2 ^ 64`). -/
def uadd (a b : Nat) : Nat := (a + b) % W

/-- `uptr` subtraction (wraps modulo `2 ^ 64`). -/
def usub (a b : Nat) : Nat := (a + (W - b % W)) % W

/-- Store one byte: `*p = v` (the store truncates to a byte). -/
def upd (s : Shadow) (p v : Nat) : Shadow :=
  fun a => if a = p then v % 256 else s a

/-- `REAL(memset)(beg, v, n)`: fill `n` bytes starting at `beg` with the byte
`v` (libc memset semantics; the value is truncated to a byte). -/
def memset (s : Shadow) (beg v n : Nat) : Shadow :=
  fun a => if beg ≤ a ∧ a < beg + n then v % 256 else s a

/-- The byte passed to `memset` in the doubling loop: `64 - i` computed in
integer arithmetic and truncated to a byte. -/
def msVal (i : Nat) : Nat := (((64 : Int) - (i : Int)) % 256).toNat

/-- Modelled from the spec: the AddressTranslator (`MEM_TO_SHADOW`, defined in
`asan_mapping.h`, which is not part of the sources): a fixed-ratio monotonic
map from application addresses to shadow addresses, one shadow byte per
granule of `G` bytes, displaced by a fixed platform offset `off`. -/
def MEM_TO_SHADOW (G off x : Nat) : Nat := (x % W / G + off) % W

/-- The `switch (N)` statement of `FastPoisonShadow`'s zero-tag branch: writes
the right-aligned tail pattern through the pointer `p = shadow_end`, truncated
to the last `N` bytes when `N < 7` (`default` and `case 7` coincide). -/
def fastPoisonTail (s : Shadow) (p N : Nat) : Shadow :=
  match N with
  | 0 => s
  | 1 => upd s (usub p 1) 64
  | 2 => upd (upd s (usub p 2) 63) (usub p 1) 64
  | 3 => upd (upd (upd s (usub p 3) 63) (usub p 2) 63) (usub p 1) 64
  | 4 => upd (upd (upd (upd s (usub p 4) 62) (usub p 3) 63) (usub p 2) 63)
        (usub p 1) 64
  | 5 => upd (upd (upd (upd (upd s (usub p 5) 62) (usub p 4) 62) (usub p 3) 63)
        (usub p 2) 63) (usub p 1) 64
  | 6 => upd (upd (upd (upd (upd (upd s (usub p 6) 62) (usub p 5) 62)
        (usub p 4) 62) (usub p 3) 63) (usub p 2) 63) (usub p 1) 64
  | _ => upd (upd (upd (upd (upd (upd (upd s (usub p 7) 62) (usub p 6) 62)
        (usub p 5) 62) (usub p 4) 62) (usub p 3) 63) (usub p 2) 63)
        (usub p 1) 64

/-- The `for (uptr i = 3; ; ++i)` doubling loop of the zero-tag branch, with an
explicit iteration budget `fuel`.  Each round either fills the final (possibly
partial) block `[shadow_beg, bEnd)` and stops, or fills the block of `2 ^ i`
bytes below the already-written suffix and continues with `i + 1`. -/
def fastPoisonLoop (fuel : Nat) (s : Shadow) (shadow_beg shadow_end i : Nat) :
    Shadow :=
  match fuel with
  | 0 => s
  | fuel + 1 =>
    let bBegin := uadd (usub shadow_end (2 ^ (i + 1) % W)) 1
    if bBegin ≤ shadow_beg then
      let bEnd := uadd (usub shadow_end (2 ^ i % W)) 1
      memset s shadow_beg (msVal i) (usub bEnd shadow_beg)
    else
      fastPoisonLoop fuel (memset s bBegin (msVal i) (2 ^ i % W))
        shadow_beg shadow_end (i + 1)

/-- Iteration budget for the doubling loop: any execution whose block index
stays inside the 64-bit domain terminates well within 200 rounds. -/
def LOOP_FUEL : Nat := 200

/-- `FastPoisonShadow(aligned_beg, aligned_size, value)` (non-Fuchsia branch):
the shadow-state transformation.  The `DCHECK` is a debug-build assertion with
no effect on the stores and is modelled separately
(`fastPoisonShadowAborts`). -/
def FastPoisonShadow (G off : Nat) (s : Shadow)
    (aligned_beg aligned_size value : Nat) : Shadow :=
  let shadow_beg := MEM_TO_SHADOW G off aligned_beg
  let shadow_end :=
    uadd (MEM_TO_SHADOW G off (usub (uadd aligned_beg aligned_size) G)) 1
  if value % 256 ≠ 0 then
    let v := if value % 256 ≤ 7 then 72 - value % 256 else value % 256
    memset s shadow_beg v (usub shadow_end shadow_beg)
  else
    let N := usub shadow_end shadow_beg
    let s1 := fastPoisonTail s shadow_end N
    if 8 ≤ N then fastPoisonLoop LOOP_FUEL s1 shadow_beg shadow_end 3 else s1

/-- The `for (uptr i = 0; i < redzone_size; i += G, shadow++)` loop of
`FastPoisonShadowPartialRightRedzone`, with an explicit iteration budget
(`redzone_size` itself suffices for any granule `G ≥ 1`). -/
def prrLoop (fuel G : Nat) (pp : Bool) (size rz value : Nat) (s : Shadow)
    (i sh : Nat) : Shadow :=
  match fuel with
  | 0 => s
  | fuel + 1 =>
    if i < rz then
      let b :=
        if i + G ≤ size then 0
        else if size ≤ i then (if G = 128 then 0xff else value)
        else if pp then G - (size &&& (G - 1)) else 0
      prrLoop fuel G pp size rz value (upd s sh b) (i + G) (sh + 1)
    else s

/-- `FastPoisonShadowPartialRightRedzone(aligned_addr, size, redzone_size,
value)`: the shadow-state transformation.  `pp` is the
`flags()->poison_partial` configuration bit; the `DCHECK` is modelled
separately (`fastPoisonPRRAborts`). -/
def FastPoisonShadowPartialRightRedzone (G off : Nat) (pp : Bool) (s : Shadow)
    (aligned_addr size redzone_size value : Nat) : Shadow :=
  prrLoop redzone_size G pp size redzone_size value s 0
    (MEM_TO_SHADOW G off aligned_addr)

/-- Modelled from the spec: `DCHECK(cond)` (sanitizer-common headers, not in
the sources) checks `cond` only in debug/assertion builds, where a failure is
fatal; in optimized builds it is compiled out. -/
def dcheckFails (debugBuild : Bool) (cond : Bool) : Bool :=
  debugBuild && !cond

/-- Abort condition of `FastPoisonShadow`'s entry assertion
`DCHECK(!value || CanPoisonMemory())`, with `canPoison` the current
PoisoningToggle state (`CanPoisonMemory()`, defined outside the sources). -/
def fastPoisonShadowAborts (debugBuild canPoison : Bool) (value : Nat) :
    Bool :=
  dcheckFails debugBuild (value % 256 == 0 || canPoison)

/-- Abort condition of `FastPoisonShadowPartialRightRedzone`'s entry assertion
`DCHECK(CanPoisonMemory())`. -/
def fastPoisonPRRAborts (debugBuild canPoison : Bool) : Bool :=
  dcheckFails debugBuild canPoison

/-- The `n` shadow bytes just below address `hi`, listed from low address to
high address. -/
def lastBytes (s : Shadow) (hi n : Nat) : List Nat :=
  (List.range n).map fun j => s (hi - n + j)

/-- Value class stored at distance `d` from the high end of a zero-tag range:
`64 - ⌊log₂ d⌋`. -/
def bandVal (d : Nat) : Nat := 64 - Nat.log 2 d

/-- The tail-pattern byte written at distance `d ∈ [1,7]` from the high end of
the range (`64` for the last byte, then `63, 63`, then `62` four times). -/
def tailVal (d : Nat) : Nat := if d = 1 then 64 else if d ≤ 3 then 63 else 62

/-- All-zero shadow memory, used for concrete instantiations. -/
def shadow0 : Shadow := fun _ => 0

/-- The standard x86-64 shadow displacement, used for concrete
instantiations. -/
def stdShadowOffset : Nat := 0x7fff8000

/-- Platform assumption on the shadow displacement: every deployed shadow
offset is at least `2 ^ 15` and small enough that shadow addresses stay well
inside the 64-bit space. -/
def ValidShadowOffset (off : Nat) : Prop := 2 ^ 15 ≤ off ∧ off ≤ 2 ^ 61

/-- A state transformer is a *masked write* when the value it leaves at each
address is either a fixed byte or the previous content, independently of the
rest of the state.  Every poisoning primitive in this file has this shape,
which yields idempotence. -/
def Oblivious (f : Shadow → Shadow) : Prop :=
  ∃ g : Nat → Option Nat, ∀ (s : Shadow) (a : Nat), f s a = (g a).getD (s a)

/-! ### Arithmetic helpers -/

lemma W_eq : W = 18446744073709551616 := rfl

lemma uadd_eq_add {a b : Nat} (h : a + b < W) : uadd a b = a + b := by
  unfold uadd
  exact Nat.mod_eq_of_lt h

lemma usub_eq_sub {a b : Nat} (ha : a < W) (hb : b ≤ a) : usub a b = a - b := by
  unfold usub
  rw [W_eq] at ha ⊢
  omega

lemma upd_apply (s : Shadow) (p v a : Nat) :
    upd s p v a = if a = p then v % 256 else s a := rfl

lemma memset_apply (s : Shadow) (beg v n a : Nat) :
    memset s beg v n a = if beg ≤ a ∧ a < beg + n then v % 256 else s a := rfl

lemma msVal_eq {i : Nat} (h : i ≤ 64) : msVal i = 64 - i := by
  unfold msVal
  omega

lemma bandVal_eq {d i : Nat} (h1 : 2 ^ i ≤ d) (h2 : d < 2 ^ (i + 1)) :
    bandVal d = 64 - i := by
  unfold bandVal
  rw [Nat.log_eq_of_pow_le_of_lt_pow h1 h2]

/-- Shadow range bounds computed by `FastPoisonShadow` for a granule-aligned
non-empty range that fits in the address space: `shadow_beg`, `shadow_end` and
the byte count `shadow_end - shadow_beg` in terms of granule indices. -/
lemma shadow_params {G off addr size : Nat} (hG8 : 8 ≤ G) (hoff : off ≤ 2 ^ 61)
    (ha : G ∣ addr) (hs : G ∣ size) (hpos : 0 < size) (hW : addr + size ≤ W) :
    MEM_TO_SHADOW G off addr = addr / G + off ∧
    uadd (MEM_TO_SHADOW G off (usub (uadd addr size) G)) 1
      = addr / G + size / G + off ∧
    usub (addr / G + size / G + off) (addr / G + off) = size / G ∧
    addr / G ≤ 2 ^ 61 ∧ 1 ≤ size / G ∧ size / G ≤ 2 ^ 61 := by
  have hW0 : W = 18446744073709551616 := rfl
  have hGpos : 0 < G := by omega
  have hGsize : G ≤ size := Nat.le_of_dvd hpos hs
  have haddr : addr < W := by omega
  have hA8 : addr / G ≤ addr / 8 := Nat.div_le_div_left hG8 (by omega)
  have hS8 : size / G ≤ size / 8 := Nat.div_le_div_left hG8 (by omega)
  have hA : addr / G ≤ 2 ^ 61 := by omega
  have hS : size / G ≤ 2 ^ 61 := by omega
  have hS1 : 1 ≤ size / G := (Nat.one_le_div_iff hGpos).2 hGsize
  -- the interior pointer `aligned_beg + aligned_size - ASAN_SHADOW_GRANULARITY`
  have hx : usub (uadd addr size) G = addr + size - G := by
    rcases Nat.lt_or_ge (addr + size) W with hlt | hge
    · rw [uadd_eq_add hlt, usub_eq_sub hlt (by omega)]
    · have hsum : addr + size = W := le_antisymm hW hge
      have h1 : uadd addr size = 0 := by
        unfold uadd
        rw [hsum, Nat.mod_self]
      rw [h1]
      unfold usub
      rw [W_eq] at hsum ⊢
      omega
  have hxdiv : (addr + size - G) / G = addr / G + size / G - 1 := by
    obtain ⟨A, hA'⟩ := ha
    obtain ⟨S, hS'⟩ := hs
    have hAe : addr / G = A := by rw [hA', Nat.mul_div_cancel_left _ hGpos]
    have hSe : size / G = S := by rw [hS', Nat.mul_div_cancel_left _ hGpos]
    have hSpos : 1 ≤ S := by rw [← hSe]; exact hS1
    have e1 : G * (A + S - 1) + G = G * (A + S) := by
      rw [← Nat.mul_succ]
      congr 1
      omega
    have e2 : G * (A + S) = G * A + G * S := Nat.mul_add G A S
    have hGQ : G ≤ G * S := by rw [← hS']; exact hGsize
    have hform : addr + size - G = G * (A + S - 1) := by
      rw [hA', hS']
      omega
    rw [hform, Nat.mul_div_cancel_left _ hGpos, hAe, hSe]
  -- replace the variable-divisor quotients by plain variables
  generalize hAg : addr / G = A at hA hxdiv ⊢
  generalize hSg : size / G = S at hS hS1 hxdiv ⊢
  refine ⟨?_, ?_, ?_, hA, hS1, hS⟩
  · unfold MEM_TO_SHADOW
    rw [Nat.mod_eq_of_lt haddr, hAg]
    exact Nat.mod_eq_of_lt (by rw [W_eq]; omega)
  · rw [hx]
    unfold MEM_TO_SHADOW
    have hxW : addr + size - G < W := by rw [W_eq]; rw [W_eq] at hW; omega
    rw [Nat.mod_eq_of_lt hxW, hxdiv]
    have hmid : (A + S - 1 + off) % W = A + S - 1 + off :=
      Nat.mod_eq_of_lt (by rw [W_eq]; omega)
    rw [hmid]
    have hlt : A + S - 1 + off + 1 < W := by rw [W_eq]; omega
    rw [uadd_eq_add hlt]
    omega
  · have h1 : A + S + off < W := by rw [W_eq]; omega
    rw [usub_eq_sub h1 (by omega)]
    omega

/-! ### The tail pattern -/

lemma bandVal1 : bandVal 1 = 64 := by
  have h := bandVal_eq (d := 1) (i := 0) (by norm_num) (by norm_num)
  omega

lemma bandVal2 : bandVal 2 = 63 := by
  have h := bandVal_eq (d := 2) (i := 1) (by norm_num) (by norm_num)
  omega

lemma bandVal3 : bandVal 3 = 63 := by
  have h := bandVal_eq (d := 3) (i := 1) (by norm_num) (by norm_num)
  omega

lemma bandVal4 : bandVal 4 = 62 := by
  have h := bandVal_eq (d := 4) (i := 2) (by norm_num) (by norm_num)
  omega

lemma bandVal5 : bandVal 5 = 62 := by
  have h := bandVal_eq (d := 5) (i := 2) (by norm_num) (by norm_num)
  omega

lemma bandVal6 : bandVal 6 = 62 := by
  have h := bandVal_eq (d := 6) (i := 2) (by norm_num) (by norm_num)
  omega

lemma bandVal7 : bandVal 7 = 62 := by
  have h := bandVal_eq (d := 7) (i := 2) (by norm_num) (by norm_num)
  omega

/-- `tailVal` agrees with the band-value classification on `[1,7]`. -/
lemma tailVal_eq_bandVal {d : Nat} (h1 : 1 ≤ d) (h7 : d ≤ 7) :
    tailVal d = bandVal d := by
  interval_cases d
  · rw [bandVal1]
    rfl
  · rw [bandVal2]
    rfl
  · rw [bandVal3]
    rfl
  · rw [bandVal4]
    rfl
  · rw [bandVal5]
    rfl
  · rw [bandVal6]
    rfl
  · rw [bandVal7]
    rfl

set_option maxHeartbeats 1600000 in
/-- Pointwise description of the `switch` statement: the last `min N 7` bytes
below `p` receive the suffix pattern, everything else is untouched. -/
lemma fastPoisonTail_spec {p N : Nat} (s : Shadow) (hN : 1 ≤ N) (hp : 7 ≤ p)
    (hpW : p < W) (a : Nat) :
    fastPoisonTail s p N a =
      if p ≤ a + min N 7 ∧ a < p then tailVal (p - a) else s a := by
  obtain ⟨q, rfl⟩ : ∃ q, p = q + 7 := ⟨p - 7, by omega⟩
  have l1 : usub (q + 7) 1 = q + 6 := by rw [usub_eq_sub hpW (by omega)]; omega
  have l2 : usub (q + 7) 2 = q + 5 := by rw [usub_eq_sub hpW (by omega)]; omega
  have l3 : usub (q + 7) 3 = q + 4 := by rw [usub_eq_sub hpW (by omega)]; omega
  have l4 : usub (q + 7) 4 = q + 3 := by rw [usub_eq_sub hpW (by omega)]; omega
  have l5 : usub (q + 7) 5 = q + 2 := by rw [usub_eq_sub hpW (by omega)]; omega
  have l6 : usub (q + 7) 6 = q + 1 := by rw [usub_eq_sub hpW (by omega)]; omega
  have l7 : usub (q + 7) 7 = q := by rw [usub_eq_sub hpW (by omega)]; omega
  have hq : 0 ≤ q := Nat.zero_le q
  clear hp hpW
  rcases N with _ | _ | _ | _ | _ | _ | _ | m
  · omega
  · simp only [fastPoisonTail, upd_apply, l1, tailVal]
    clear l1 l2 l3 l4 l5 l6 l7 hN
    split_ifs <;> omega
  · simp only [fastPoisonTail, upd_apply, l1, l2, tailVal]
    clear l1 l2 l3 l4 l5 l6 l7 hN
    split_ifs <;> omega
  · simp only [fastPoisonTail, upd_apply, l1, l2, l3, tailVal]
    clear l1 l2 l3 l4 l5 l6 l7 hN
    split_ifs <;> omega
  · simp only [fastPoisonTail, upd_apply, l1, l2, l3, l4, tailVal]
    clear l1 l2 l3 l4 l5 l6 l7 hN
    split_ifs <;> omega
  · simp only [fastPoisonTail, upd_apply, l1, l2, l3, l4, l5, tailVal]
    clear l1 l2 l3 l4 l5 l6 l7 hN
    split_ifs <;> omega
  · simp only [fastPoisonTail, upd_apply, l1, l2, l3, l4, l5, l6, tailVal]
    clear l1 l2 l3 l4 l5 l6 l7 hN
    split_ifs <;> omega
  · simp only [fastPoisonTail, upd_apply, l1, l2, l3, l4, l5, l6, l7, tailVal]
    clear l1 l2 l3 l4 l5 l6 l7 hN
    split_ifs <;> omega

/-! ### The doubling loop: closed form in the wrap-free regime -/

lemma pow_mod_W_small {k : Nat} (hk : k ≤ 63) : 2 ^ k % W = 2 ^ k := by
  apply Nat.mod_eq_of_lt
  have h : (2 : Nat) ^ k ≤ 2 ^ 63 := Nat.pow_le_pow_right (by norm_num) hk
  rw [W_eq]
  omega

lemma pow_mod_W_big {k : Nat} (hk : 64 ≤ k) : 2 ^ k % W = 0 := by
  have hd : W ∣ 2 ^ k := by
    have h64 : (2 : Nat) ^ 64 ∣ 2 ^ k := pow_dvd_pow 2 hk
    simpa [W] using h64
  exact Nat.mod_eq_zero_of_dvd hd

/-- In the wrap-free regime (block sizes below the range end, range end inside
the 64-bit space) the doubling loop writes `bandVal` of the distance to the
range end at every position at distance `≥ 2 ^ i`, and touches nothing else. -/
lemma fastPoisonLoop_eq (fuel : Nat) :
    ∀ (i sbeg N : Nat) (s : Shadow), 3 ≤ i → 2 ^ i ≤ N → N ≤ sbeg →
      sbeg + N < 2 ^ 63 → N < 2 ^ (i + fuel) → ∀ a,
      fastPoisonLoop fuel s sbeg (sbeg + N) i a =
        if sbeg ≤ a ∧ a + 2 ^ i ≤ sbeg + N then bandVal (sbeg + N - a)
        else s a := by
  induction fuel with
  | zero =>
    intro i sbeg N s hi hiN hNs hlt hfuel a
    simp only [Nat.add_zero] at hfuel
    exact absurd hfuel (by omega)
  | succ fuel ih =>
    intro i sbeg N s hi hiN hNs hlt hfuel a
    have hWlit : W = 18446744073709551616 := W_eq
    have hpow : (2 : Nat) ^ (i + 1) = 2 * 2 ^ i := by ring
    have hi61 : i ≤ 62 := by
      by_contra hcon
      push_neg at hcon
      have h63 : (2 : Nat) ^ 63 ≤ 2 ^ i := Nat.pow_le_pow_right (by norm_num) (by omega)
      omega
    have hm1 : 2 ^ (i + 1) % W = 2 ^ (i + 1) := pow_mod_W_small (by omega)
    have hm0 : 2 ^ i % W = 2 ^ i := pow_mod_W_small (by omega)
    have hsendW : sbeg + N < W := by rw [hWlit]; omega
    have hile : 2 ^ (i + 1) ≤ sbeg + N := by omega
    have e3 : usub (sbeg + N) (2 ^ (i + 1)) = sbeg + N - 2 ^ (i + 1) :=
      usub_eq_sub hsendW hile
    have e4 : uadd (sbeg + N - 2 ^ (i + 1)) 1 = sbeg + N - 2 ^ (i + 1) + 1 :=
      uadd_eq_add (by rw [hWlit]; omega)
    have e5 : usub (sbeg + N) (2 ^ i) = sbeg + N - 2 ^ i :=
      usub_eq_sub hsendW (by omega)
    have e6 : uadd (sbeg + N - 2 ^ i) 1 = sbeg + N - 2 ^ i + 1 :=
      uadd_eq_add (by rw [hWlit]; omega)
    simp only [fastPoisonLoop, hm1, hm0, e3, e4, e5, e6]
    by_cases hterm : sbeg + N - 2 ^ (i + 1) + 1 ≤ sbeg
    · rw [if_pos hterm]
      have e7 : usub (sbeg + N - 2 ^ i + 1) sbeg = N + 1 - 2 ^ i := by
        rw [usub_eq_sub (by rw [hWlit]; omega) (by omega)]
        omega
      rw [e7]
      simp only [memset_apply, msVal_eq (show i ≤ 64 by omega)]
      clear e3 e4 e5 e6 e7 hm0 hm1 hsendW hWlit ih hfuel hlt
      split_ifs <;>
        first
          | rfl
          | omega
          | (rw [bandVal_eq (show 2 ^ i ≤ sbeg + N - a by omega)
              (show sbeg + N - a < 2 ^ (i + 1) by omega)] <;> omega)
    · rw [if_neg hterm]
      have hrec : 2 ^ (i + 1) ≤ N := by omega
      have hfuel2 : N < 2 ^ (i + 1 + fuel) := by
        have heq : i + 1 + fuel = i + (fuel + 1) := by omega
        rw [heq]
        exact hfuel
      rw [ih (i + 1) sbeg N _ (by omega) hrec hNs hlt hfuel2 a]
      simp only [memset_apply, msVal_eq (show i ≤ 64 by omega)]
      clear e3 e4 e5 e6 hm0 hm1 hsendW hWlit ih hfuel hfuel2 hlt
      split_ifs <;>
        first
          | rfl
          | omega
          | (rw [bandVal_eq (show 2 ^ i ≤ sbeg + N - a by omega)
              (show sbeg + N - a < 2 ^ (i + 1) by omega)] <;> omega)

/-! ### The doubling loop: every store stays below the last 7 bytes (or above
the range end) and carries a value in `[1, 61]`, for ranges of any length -/

/-- Invariant-carrying description of the doubling loop for arbitrary range
lengths (including executions whose block arithmetic wraps around `2 ^ 64`):
every byte the loop changes lies below `shadow_end - 7` or at/above
`shadow_end`, is at/above `shadow_beg`, and receives a value in `[1, 61]`. -/
lemma fastPoisonLoop_writes (fuel : Nat) :
    ∀ (i sbeg send : Nat) (s : Shadow), 3 ≤ i → sbeg ≤ send → send < 2 ^ 63 →
      (2 ^ i + sbeg ≤ send ∨ send + 1 < 2 ^ (i + 1)) → ∀ a,
      fastPoisonLoop fuel s sbeg send i a = s a ∨
      (1 ≤ fastPoisonLoop fuel s sbeg send i a ∧
        fastPoisonLoop fuel s sbeg send i a ≤ 61 ∧
        sbeg ≤ a ∧ (a + 7 < send ∨ send ≤ a)) := by
  induction fuel with
  | zero =>
    intro i sbeg send s _ _ _ _ a
    exact Or.inl rfl
  | succ fuel ih =>
    intro i sbeg send s hi hbs hsend hinv a
    have hWlit : W = 18446744073709551616 := W_eq
    have hpow : (2 : Nat) ^ (i + 1) = 2 * 2 ^ i := by ring
    have h8 : (8 : Nat) ≤ 2 ^ i := by
      calc (8 : Nat) = 2 ^ 3 := by norm_num
        _ ≤ 2 ^ i := Nat.pow_le_pow_right (by norm_num) hi
    have hsW : send < W := by rw [hWlit]; omega
    by_cases hi62 : i ≤ 62
    · have hm1 : 2 ^ (i + 1) % W = 2 ^ (i + 1) := pow_mod_W_small (by omega)
      have hm0 : 2 ^ i % W = 2 ^ i := pow_mod_W_small (by omega)
      have hp63 : (2 : Nat) ^ (i + 1) ≤ 2 ^ 63 :=
        Nat.pow_le_pow_right (by norm_num) (by omega)
      by_cases hPs : 2 ^ (i + 1) ≤ send
      · -- `bBegin` does not wrap
        have e3 : usub send (2 ^ (i + 1)) = send - 2 ^ (i + 1) :=
          usub_eq_sub hsW hPs
        have e4 : uadd (send - 2 ^ (i + 1)) 1 = send - 2 ^ (i + 1) + 1 :=
          uadd_eq_add (by rw [hWlit]; omega)
        simp only [fastPoisonLoop, hm1, hm0, e3, e4]
        by_cases hterm : send - 2 ^ (i + 1) + 1 ≤ sbeg
        · rw [if_pos hterm]
          have hiN : 2 ^ i + sbeg ≤ send := by
            rcases hinv with h | h
            · exact h
            · omega
          have e5 : usub send (2 ^ i) = send - 2 ^ i :=
            usub_eq_sub hsW (by omega)
          have e6 : uadd (send - 2 ^ i) 1 = send - 2 ^ i + 1 :=
            uadd_eq_add (by rw [hWlit]; omega)
          have e7 : usub (send - 2 ^ i + 1) sbeg = send - 2 ^ i + 1 - sbeg :=
            usub_eq_sub (by rw [hWlit]; omega) (by omega)
          simp only [e5, e6, e7, memset_apply, msVal_eq (show i ≤ 64 by omega)]
          clear e3 e4 e5 e6 e7 hm0 hm1 hsW hWlit hp63 ih hinv
          by_cases hreg : sbeg ≤ a ∧ a < sbeg + (send - 2 ^ i + 1 - sbeg)
          · rw [if_pos hreg]
            right
            omega
          · rw [if_neg hreg]
            exact Or.inl rfl
        · rw [if_neg hterm]
          have hinv2 : 2 ^ (i + 1) + sbeg ≤ send ∨ send + 1 < 2 ^ (i + 1 + 1) :=
            Or.inl (by omega)
          rcases ih (i + 1) sbeg send
              (memset s (send - 2 ^ (i + 1) + 1) (msVal i) (2 ^ i))
              (by omega) hbs hsend hinv2 a with hcase | hcase
          · rw [hcase]
            simp only [memset_apply, msVal_eq (show i ≤ 64 by omega)]
            clear e3 e4 hm0 hm1 hsW hWlit hp63 ih hinv hcase
            by_cases hreg : send - 2 ^ (i + 1) + 1 ≤ a ∧
                a < send - 2 ^ (i + 1) + 1 + 2 ^ i
            · rw [if_pos hreg]
              right
              omega
            · rw [if_neg hreg]
              exact Or.inl rfl
          · exact Or.inr hcase
      · -- `2 ^ (i + 1)` exceeds `send`: `bBegin` wraps (or lands on `0`)
        push_neg at hPs
        have e3 : usub send (2 ^ (i + 1)) = send + (W - 2 ^ (i + 1)) := by
          unfold usub
          rw [hm1]
          apply Nat.mod_eq_of_lt
          rw [hWlit]
          omega
        by_cases hzero : send + 1 = 2 ^ (i + 1)
        · -- `bBegin = 0`: the loop terminates here
          have hiN : 2 ^ i + sbeg ≤ send := by
            rcases hinv with h | h
            · exact h
            · omega
          have e4 : uadd (send + (W - 2 ^ (i + 1))) 1 = 0 := by
            unfold uadd
            rw [hWlit]
            rw [hWlit] at e3
            omega
          simp only [fastPoisonLoop, hm1, hm0, e3, e4]
          rw [if_pos (Nat.zero_le sbeg)]
          have e5 : usub send (2 ^ i) = send - 2 ^ i :=
            usub_eq_sub hsW (by omega)
          have e6 : uadd (send - 2 ^ i) 1 = send - 2 ^ i + 1 :=
            uadd_eq_add (by rw [hWlit]; omega)
          have e7 : usub (send - 2 ^ i + 1) sbeg = send - 2 ^ i + 1 - sbeg :=
            usub_eq_sub (by rw [hWlit]; omega) (by omega)
          simp only [e5, e6, e7, memset_apply, msVal_eq (show i ≤ 64 by omega)]
          clear e3 e4 e5 e6 e7 hm0 hm1 hsW hWlit hp63 ih hinv
          by_cases hreg : sbeg ≤ a ∧ a < sbeg + (send - 2 ^ i + 1 - sbeg)
          · rw [if_pos hreg]
            right
            omega
          · rw [if_neg hreg]
            exact Or.inl rfl
        · -- `bBegin` wraps to the far top of the address space
          have e4 : uadd (send + (W - 2 ^ (i + 1))) 1
              = send + (W - 2 ^ (i + 1)) + 1 :=
            uadd_eq_add (by rw [hWlit]; omega)
          simp only [fastPoisonLoop, hm1, hm0, e3, e4]
          have hng : ¬(send + (W - 2 ^ (i + 1)) + 1 ≤ sbeg) := by
            rw [hWlit]
            omega
          rw [if_neg hng]
          have hinv2 : 2 ^ (i + 1) + sbeg ≤ send ∨ send + 1 < 2 ^ (i + 1 + 1) := by
            right
            have : (2 : Nat) ^ (i + 1) ≤ 2 ^ (i + 1 + 1) :=
              Nat.pow_le_pow_right (by norm_num) (by omega)
            omega
          rcases ih (i + 1) sbeg send
              (memset s (send + (W - 2 ^ (i + 1)) + 1) (msVal i) (2 ^ i))
              (by omega) hbs hsend hinv2 a with hcase | hcase
          · rw [hcase]
            simp only [memset_apply, msVal_eq (show i ≤ 64 by omega)]
            rw [hWlit] at hsW
            clear e3 e4 hm0 hm1 hWlit hp63 ih hinv hcase
            by_cases hreg : send + (W - 2 ^ (i + 1)) + 1 ≤ a ∧
                a < send + (W - 2 ^ (i + 1)) + 1 + 2 ^ i
            · rw [if_pos hreg]
              right
              rw [W_eq] at hreg
              constructor
              · omega
              constructor
              · omega
              constructor
              · omega
              · right
                omega
            · rw [if_neg hreg]
              exact Or.inl rfl
          · exact Or.inr hcase
    · -- `i ≥ 63`: `2 ^ (i + 1)` vanishes modulo `2 ^ 64`; `bBegin = send + 1`
      push_neg at hi62
      have hbig : (2 : Nat) ^ 63 ≤ 2 ^ i :=
        Nat.pow_le_pow_right (by norm_num) (by omega)
      have hm1 : 2 ^ (i + 1) % W = 0 := pow_mod_W_big (by omega)
      have e3 : usub send 0 = send := by
        unfold usub
        rw [hWlit]
        omega
      have e4 : uadd send 1 = send + 1 := uadd_eq_add (by rw [hWlit]; omega)
      simp only [fastPoisonLoop, hm1, e3, e4]
      have hng : ¬(send + 1 ≤ sbeg) := by omega
      rw [if_neg hng]
      have hinv2 : 2 ^ (i + 1) + sbeg ≤ send ∨ send + 1 < 2 ^ (i + 1 + 1) := by
        right
        have h63 : (2 : Nat) ^ 64 ≤ 2 ^ (i + 1 + 1) :=
          Nat.pow_le_pow_right (by norm_num) (by omega)
        omega
      have hstep : 3 ≤ i + 1 := by omega
      rcases ih (i + 1) sbeg send (memset s (send + 1) (msVal i) (2 ^ i % W))
          hstep hbs hsend hinv2 a with hcase | hcase
      · rw [hcase]
        simp only [memset_apply]
        by_cases hreg : send + 1 ≤ a ∧ a < send + 1 + 2 ^ i % W
        · rw [if_pos hreg]
          right
          have hq : 2 ^ i % W ≠ 0 := by omega
          have hi63 : i ≤ 63 := by
            by_contra hcon
            push_neg at hcon
            exact hq (pow_mod_W_big (by omega))
          have hv : msVal i = 64 - i := msVal_eq (by omega)
          rw [hv]
          clear e3 e4 hm1 hsW hWlit ih hinv hcase hq hv
          omega
        · rw [if_neg hreg]
          exact Or.inl rfl
      · exact Or.inr hcase

/-! ### Zero-tag branch: full closed form -/

/-- Closed form of the zero-tag (`mark addressable`) branch: on a granule
aligned non-empty range whose granule count stays below the shadow offset,
every covered shadow byte receives `bandVal` of its distance to the range end
(`64, 63, 63, 62 ×4, 61 ×8, 60 ×16, ...`), and no other byte changes. -/
lemma fastPoisonShadow_zero_spec {G off addr size value : Nat} (s : Shadow)
    (hG8 : 8 ≤ G) (hoff : ValidShadowOffset off) (ha : G ∣ addr)
    (hs : G ∣ size) (hpos : 0 < size) (hW : addr + size ≤ W)
    (hv : value % 256 = 0) (hbound : size / G ≤ off) (a : Nat) :
    FastPoisonShadow G off s addr size value a =
      if addr / G + off ≤ a ∧ a < addr / G + off + size / G
      then bandVal (addr / G + off + size / G - a) else s a := by
  obtain ⟨hoff15, hoff61⟩ := hoff
  obtain ⟨hbeg, hend, hN, hA61, hS1, hS61⟩ :=
    shadow_params hG8 hoff61 ha hs hpos hW
  have hend' : uadd (MEM_TO_SHADOW G off (usub (uadd addr size) G)) 1
      = addr / G + off + size / G := by
    rw [hend]
    ring
  have hN' : usub (addr / G + off + size / G) (addr / G + off) = size / G := by
    rw [show addr / G + off + size / G = addr / G + size / G + off by ring]
    exact hN
  clear hend hN
  generalize hAg : addr / G = A at hbeg hend' hN' hA61 ⊢
  generalize hSg : size / G = S at hend' hN' hS1 hS61 hbound ⊢
  have hoff15' : (32768 : Nat) ≤ off := by
    have : (2 : Nat) ^ 15 = 32768 := by norm_num
    omega
  simp only [FastPoisonShadow, hbeg, hend', hN']
  have hcnd : ¬(value % 256 ≠ 0) := by omega
  rw [if_neg hcnd]
  have htail := fastPoisonTail_spec s hS1 (show 7 ≤ A + off + S by omega)
    (show A + off + S < W by rw [W_eq]; omega) a
  by_cases h8 : 8 ≤ S
  · rw [if_pos h8]
    have hfuel : S < 2 ^ (3 + LOOP_FUEL) := by
      have hpw : (2 : Nat) ^ (3 + LOOP_FUEL) = 2 ^ 203 := rfl
      rw [hpw]
      have : (2 : Nat) ^ 61 < 2 ^ 203 := by norm_num
      omega
    have hloop := fastPoisonLoop_eq LOOP_FUEL 3 (A + off) S
      (fastPoisonTail s (A + off + S) S) (by norm_num) (by omega) (by omega)
      (by omega) hfuel a
    rw [hloop, htail, show min S 7 = 7 by omega]
    clear hbeg hend' hN' htail hloop hcnd hfuel
    split_ifs <;>
      first
        | rfl
        | omega
        | (rw [tailVal_eq_bandVal (by omega) (by omega)])
  · rw [if_neg h8]
    rw [htail, show min S 7 = S by omega]
    clear hbeg hend' hN' htail hcnd
    split_ifs <;>
      first
        | rfl
        | omega
        | (rw [tailVal_eq_bandVal (by omega) (by omega)])

/-! ### Claims -/

/-- C1: for every granule-aligned range (`addr`, `size`) with `size > 0` and
every nonzero tag, `FastPoisonShadow` fills every covered shadow byte with one
uniform value: `72 - tag` when `tag ∈ [1,7]`, and `tag` itself unchanged when
`tag ∈ [8,255]`. -/
theorem C1_nonzero_uniform_fill {G off addr size value : Nat} (s : Shadow)
    (hG8 : 8 ≤ G) (hoff : ValidShadowOffset off) (ha : G ∣ addr)
    (hs : G ∣ size) (hpos : 0 < size) (hW : addr + size ≤ W)
    (hv1 : 1 ≤ value) (hv255 : value ≤ 255) (a : Nat)
    (halo : MEM_TO_SHADOW G off addr ≤ a)
    (hahi : a < MEM_TO_SHADOW G off addr + size / G) :
    FastPoisonShadow G off s addr size value a =
      if value ≤ 7 then 72 - value else value := by
  obtain ⟨hbeg, hend, hN, hA61, hS1, hS61⟩ :=
    shadow_params hG8 hoff.2 ha hs hpos hW
  rw [hbeg] at halo hahi
  generalize hAg : addr / G = A at hbeg hend hN halo hahi
  generalize hSg : size / G = S at hend hN hahi
  simp only [FastPoisonShadow, hbeg, hend, hN]
  have hvm : value % 256 = value := Nat.mod_eq_of_lt (by omega)
  have hcnd : value % 256 ≠ 0 := by omega
  rw [if_pos hcnd]
  simp only [memset_apply, hvm]
  rw [if_pos (show A + off ≤ a ∧ a < A + off + S from ⟨halo, by omega⟩)]
  split_ifs <;> omega

/-- C1 witness: poisoning `[16, 40)` with tag `5` stores `72 - 5 = 67` in the
first covered shadow byte. -/
theorem C1_witness :
    FastPoisonShadow 8 stdShadowOffset shadow0 16 24 5
      (MEM_TO_SHADOW 8 stdShadowOffset 16) = if 5 ≤ 7 then 72 - 5 else 5 :=
  C1_nonzero_uniform_fill shadow0 (by decide) ⟨by decide, by decide⟩
    (by decide) (by decide) (by decide) (by decide) (by decide) (by decide)
    (MEM_TO_SHADOW 8 stdShadowOffset 16) (by decide) (by decide)

/-- C8 (amended): for every granule-aligned `addr > 0` and every tag, calling
`FastPoisonShadow` with `size = 0` is a no-op in both branches.  (At
`addr = 0` the interior pointer `addr + size - G` wraps around `2 ^ 64` and
the call is not a no-op; see the counterexample.) -/
theorem C8_size_zero_noop {G off addr value : Nat} (s : Shadow)
    (hG8 : 8 ≤ G) (hoff : ValidShadowOffset off) (ha : G ∣ addr)
    (hpos : 0 < addr) (haW : addr < W) (a : Nat) :
    FastPoisonShadow G off s addr 0 value a = s a := by
  obtain ⟨hoff15, hoff61⟩ := hoff
  obtain ⟨A, rfl⟩ := ha
  have hWlit : W = 18446744073709551616 := W_eq
  have hGpos : 0 < G := by omega
  have hA1 : 1 ≤ A := by
    rcases Nat.eq_zero_or_pos A with h0 | h1
    · subst h0
      simp at hpos
    · exact h1
  have hA61 : A ≤ 2 ^ 61 := by
    have h8A : 8 * A ≤ G * A := Nat.mul_le_mul_right A hG8
    rw [hWlit] at haW
    omega
  have h1 : uadd (G * A) 0 = G * A := by
    unfold uadd
    exact Nat.mod_eq_of_lt haW
  have hGa : G ≤ G * A := by
    calc G = G * 1 := by ring
      _ ≤ G * A := Nat.mul_le_mul_left G hA1
  have h2 : usub (G * A) G = G * (A - 1) := by
    rw [usub_eq_sub haW hGa]
    have e1 : G * (A - 1) + G = G * A := by
      rw [← Nat.mul_succ]
      congr 1
      omega
    omega
  have hbeg : MEM_TO_SHADOW G off (G * A) = A + off := by
    unfold MEM_TO_SHADOW
    rw [Nat.mod_eq_of_lt haW, Nat.mul_div_cancel_left _ hGpos]
    exact Nat.mod_eq_of_lt (by rw [hWlit]; omega)
  have hend : uadd (MEM_TO_SHADOW G off (G * (A - 1))) 1 = A + off := by
    unfold MEM_TO_SHADOW uadd
    have hlt : G * (A - 1) < W :=
      lt_of_le_of_lt (Nat.mul_le_mul_left G (Nat.sub_le A 1)) haW
    rw [Nat.mod_eq_of_lt hlt, Nat.mul_div_cancel_left _ hGpos]
    have hm : (A - 1 + off) % W = A - 1 + off := Nat.mod_eq_of_lt (by rw [hWlit]; omega)
    rw [hm]
    rw [Nat.mod_eq_of_lt (by rw [hWlit]; omega)]
    omega
  simp only [FastPoisonShadow, h1, h2, hbeg, hend]
  have hN0 : usub (A + off) (A + off) = 0 := by
    unfold usub
    rw [hWlit]
    omega
  rw [hN0]
  by_cases hv : value % 256 ≠ 0
  · rw [if_pos hv]
    simp only [memset_apply]
    rw [if_neg (by omega)]
  · rw [if_neg hv]
    rw [if_neg (by omega)]
    rfl

/-- C8 counterexample: with `addr = 0`, `size = 0` and tag `5`, the interior
pointer computation wraps and `FastPoisonShadow` overwrites the shadow byte at
the shadow offset (with `72 - 5 = 67`), so the call is not a no-op. -/
theorem C8_counterexample :
    FastPoisonShadow 8 stdShadowOffset shadow0 0 0 5 stdShadowOffset ≠
      shadow0 stdShadowOffset := by decide

/-- C3: for every granule-aligned range with tag `0` and `0 < size < 7·G`,
`FastPoisonShadow` writes exactly the length-`size/G` suffix of
`[62,62,62,63,63,64]` into the covered shadow bytes and writes nothing
else. -/
theorem C3_small_zero_suffix {G off addr size : Nat} (s : Shadow)
    (hG8 : 8 ≤ G) (hoff : ValidShadowOffset off) (ha : G ∣ addr)
    (hs : G ∣ size) (hpos : 0 < size) (hW : addr + size ≤ W)
    (hsmall : size < 7 * G) :
    lastBytes (FastPoisonShadow G off s addr size 0)
        (addr / G + off + size / G) (size / G)
      = List.drop (6 - size / G) [62, 62, 62, 63, 63, 64] ∧
    ∀ a, (a < addr / G + off ∨ addr / G + off + size / G ≤ a) →
      FastPoisonShadow G off s addr size 0 a = s a := by
  obtain ⟨hoff15, hoff61⟩ := hoff
  have hGpos : 0 < G := by omega
  have hS6 : size / G < 7 := (Nat.div_lt_iff_lt_mul hGpos).2 hsmall
  have hS1 : 1 ≤ size / G :=
    (Nat.one_le_div_iff hGpos).2 (Nat.le_of_dvd hpos hs)
  have hbound : size / G ≤ off :=
    le_trans (le_of_lt (lt_of_lt_of_le hS6 (by norm_num : (7 : Nat) ≤ 2 ^ 15)))
      hoff15
  have hz := fun (a : Nat) =>
    fastPoisonShadow_zero_spec s hG8 ⟨hoff15, hoff61⟩ ha hs hpos hW
      (show (0 : Nat) % 256 = 0 from rfl) hbound a
  generalize hSg : size / G = S at hz hS6 hS1 ⊢
  generalize hAg : addr / G = A at hz ⊢
  refine ⟨?_, fun a hout => by rw [hz a]; exact if_neg (by omega)⟩
  interval_cases S
  · -- S = 1
    rw [show List.drop (6 - 1) [62, 62, 62, 63, 63, 64] = [64] from rfl]
    rw [show lastBytes (FastPoisonShadow G off s addr size 0) (A + off + 1) 1
        = [FastPoisonShadow G off s addr size 0 (A + off + 1 - 1 + 0)] from rfl]
    rw [hz (A + off + 1 - 1 + 0)]
    have hc0 : A + off ≤ A + off + 1 - 1 + 0 ∧
        A + off + 1 - 1 + 0 < A + off + 1 := by omega
    rw [if_pos hc0]
    rw [show A + off + 1 - (A + off + 1 - 1 + 0) = 1 from by omega]
    rw [bandVal1]
  · -- S = 2
    rw [show List.drop (6 - 2) [62, 62, 62, 63, 63, 64] = [63, 64] from rfl]
    rw [show lastBytes (FastPoisonShadow G off s addr size 0) (A + off + 2) 2
        = [FastPoisonShadow G off s addr size 0 (A + off + 2 - 2 + 0), FastPoisonShadow G off s addr size 0 (A + off + 2 - 2 + 1)] from rfl]
    rw [hz (A + off + 2 - 2 + 0)]
    have hc0 : A + off ≤ A + off + 2 - 2 + 0 ∧
        A + off + 2 - 2 + 0 < A + off + 2 := by omega
    rw [if_pos hc0]
    rw [hz (A + off + 2 - 2 + 1)]
    have hc1 : A + off ≤ A + off + 2 - 2 + 1 ∧
        A + off + 2 - 2 + 1 < A + off + 2 := by omega
    rw [if_pos hc1]
    rw [show A + off + 2 - (A + off + 2 - 2 + 0) = 2 from by omega]
    rw [show A + off + 2 - (A + off + 2 - 2 + 1) = 1 from by omega]
    rw [bandVal2]
    rw [bandVal1]
  · -- S = 3
    rw [show List.drop (6 - 3) [62, 62, 62, 63, 63, 64] = [63, 63, 64] from rfl]
    rw [show lastBytes (FastPoisonShadow G off s addr size 0) (A + off + 3) 3
        = [FastPoisonShadow G off s addr size 0 (A + off + 3 - 3 + 0), FastPoisonShadow G off s addr size 0 (A + off + 3 - 3 + 1), FastPoisonShadow G off s addr size 0 (A + off + 3 - 3 + 2)] from rfl]
    rw [hz (A + off + 3 - 3 + 0)]
    have hc0 : A + off ≤ A + off + 3 - 3 + 0 ∧
        A + off + 3 - 3 + 0 < A + off + 3 := by omega
    rw [if_pos hc0]
    rw [hz (A + off + 3 - 3 + 1)]
    have hc1 : A + off ≤ A + off + 3 - 3 + 1 ∧
        A + off + 3 - 3 + 1 < A + off + 3 := by omega
    rw [if_pos hc1]
    rw [hz (A + off + 3 - 3 + 2)]
    have hc2 : A + off ≤ A + off + 3 - 3 + 2 ∧
        A + off + 3 - 3 + 2 < A + off + 3 := by omega
    rw [if_pos hc2]
    rw [show A + off + 3 - (A + off + 3 - 3 + 0) = 3 from by omega]
    rw [show A + off + 3 - (A + off + 3 - 3 + 1) = 2 from by omega]
    rw [show A + off + 3 - (A + off + 3 - 3 + 2) = 1 from by omega]
    rw [bandVal3]
    rw [bandVal2]
    rw [bandVal1]
  · -- S = 4
    rw [show List.drop (6 - 4) [62, 62, 62, 63, 63, 64] = [62, 63, 63, 64] from rfl]
    rw [show lastBytes (FastPoisonShadow G off s addr size 0) (A + off + 4) 4
        = [FastPoisonShadow G off s addr size 0 (A + off + 4 - 4 + 0), FastPoisonShadow G off s addr size 0 (A + off + 4 - 4 + 1), FastPoisonShadow G off s addr size 0 (A + off + 4 - 4 + 2), FastPoisonShadow G off s addr size 0 (A + off + 4 - 4 + 3)] from rfl]
    rw [hz (A + off + 4 - 4 + 0)]
    have hc0 : A + off ≤ A + off + 4 - 4 + 0 ∧
        A + off + 4 - 4 + 0 < A + off + 4 := by omega
    rw [if_pos hc0]
    rw [hz (A + off + 4 - 4 + 1)]
    have hc1 : A + off ≤ A + off + 4 - 4 + 1 ∧
        A + off + 4 - 4 + 1 < A + off + 4 := by omega
    rw [if_pos hc1]
    rw [hz (A + off + 4 - 4 + 2)]
    have hc2 : A + off ≤ A + off + 4 - 4 + 2 ∧
        A + off + 4 - 4 + 2 < A + off + 4 := by omega
    rw [if_pos hc2]
    rw [hz (A + off + 4 - 4 + 3)]
    have hc3 : A + off ≤ A + off + 4 - 4 + 3 ∧
        A + off + 4 - 4 + 3 < A + off + 4 := by omega
    rw [if_pos hc3]
    rw [show A + off + 4 - (A + off + 4 - 4 + 0) = 4 from by omega]
    rw [show A + off + 4 - (A + off + 4 - 4 + 1) = 3 from by omega]
    rw [show A + off + 4 - (A + off + 4 - 4 + 2) = 2 from by omega]
    rw [show A + off + 4 - (A + off + 4 - 4 + 3) = 1 from by omega]
    rw [bandVal4]
    rw [bandVal3]
    rw [bandVal2]
    rw [bandVal1]
  · -- S = 5
    rw [show List.drop (6 - 5) [62, 62, 62, 63, 63, 64] = [62, 62, 63, 63, 64] from rfl]
    rw [show lastBytes (FastPoisonShadow G off s addr size 0) (A + off + 5) 5
        = [FastPoisonShadow G off s addr size 0 (A + off + 5 - 5 + 0), FastPoisonShadow G off s addr size 0 (A + off + 5 - 5 + 1), FastPoisonShadow G off s addr size 0 (A + off + 5 - 5 + 2), FastPoisonShadow G off s addr size 0 (A + off + 5 - 5 + 3), FastPoisonShadow G off s addr size 0 (A + off + 5 - 5 + 4)] from rfl]
    rw [hz (A + off + 5 - 5 + 0)]
    have hc0 : A + off ≤ A + off + 5 - 5 + 0 ∧
        A + off + 5 - 5 + 0 < A + off + 5 := by omega
    rw [if_pos hc0]
    rw [hz (A + off + 5 - 5 + 1)]
    have hc1 : A + off ≤ A + off + 5 - 5 + 1 ∧
        A + off + 5 - 5 + 1 < A + off + 5 := by omega
    rw [if_pos hc1]
    rw [hz (A + off + 5 - 5 + 2)]
    have hc2 : A + off ≤ A + off + 5 - 5 + 2 ∧
        A + off + 5 - 5 + 2 < A + off + 5 := by omega
    rw [if_pos hc2]
    rw [hz (A + off + 5 - 5 + 3)]
    have hc3 : A + off ≤ A + off + 5 - 5 + 3 ∧
        A + off + 5 - 5 + 3 < A + off + 5 := by omega
    rw [if_pos hc3]
    rw [hz (A + off + 5 - 5 + 4)]
    have hc4 : A + off ≤ A + off + 5 - 5 + 4 ∧
        A + off + 5 - 5 + 4 < A + off + 5 := by omega
    rw [if_pos hc4]
    rw [show A + off + 5 - (A + off + 5 - 5 + 0) = 5 from by omega]
    rw [show A + off + 5 - (A + off + 5 - 5 + 1) = 4 from by omega]
    rw [show A + off + 5 - (A + off + 5 - 5 + 2) = 3 from by omega]
    rw [show A + off + 5 - (A + off + 5 - 5 + 3) = 2 from by omega]
    rw [show A + off + 5 - (A + off + 5 - 5 + 4) = 1 from by omega]
    rw [bandVal5]
    rw [bandVal4]
    rw [bandVal3]
    rw [bandVal2]
    rw [bandVal1]
  · -- S = 6
    rw [show List.drop (6 - 6) [62, 62, 62, 63, 63, 64] = [62, 62, 62, 63, 63, 64] from rfl]
    rw [show lastBytes (FastPoisonShadow G off s addr size 0) (A + off + 6) 6
        = [FastPoisonShadow G off s addr size 0 (A + off + 6 - 6 + 0), FastPoisonShadow G off s addr size 0 (A + off + 6 - 6 + 1), FastPoisonShadow G off s addr size 0 (A + off + 6 - 6 + 2), FastPoisonShadow G off s addr size 0 (A + off + 6 - 6 + 3), FastPoisonShadow G off s addr size 0 (A + off + 6 - 6 + 4), FastPoisonShadow G off s addr size 0 (A + off + 6 - 6 + 5)] from rfl]
    rw [hz (A + off + 6 - 6 + 0)]
    have hc0 : A + off ≤ A + off + 6 - 6 + 0 ∧
        A + off + 6 - 6 + 0 < A + off + 6 := by omega
    rw [if_pos hc0]
    rw [hz (A + off + 6 - 6 + 1)]
    have hc1 : A + off ≤ A + off + 6 - 6 + 1 ∧
        A + off + 6 - 6 + 1 < A + off + 6 := by omega
    rw [if_pos hc1]
    rw [hz (A + off + 6 - 6 + 2)]
    have hc2 : A + off ≤ A + off + 6 - 6 + 2 ∧
        A + off + 6 - 6 + 2 < A + off + 6 := by omega
    rw [if_pos hc2]
    rw [hz (A + off + 6 - 6 + 3)]
    have hc3 : A + off ≤ A + off + 6 - 6 + 3 ∧
        A + off + 6 - 6 + 3 < A + off + 6 := by omega
    rw [if_pos hc3]
    rw [hz (A + off + 6 - 6 + 4)]
    have hc4 : A + off ≤ A + off + 6 - 6 + 4 ∧
        A + off + 6 - 6 + 4 < A + off + 6 := by omega
    rw [if_pos hc4]
    rw [hz (A + off + 6 - 6 + 5)]
    have hc5 : A + off ≤ A + off + 6 - 6 + 5 ∧
        A + off + 6 - 6 + 5 < A + off + 6 := by omega
    rw [if_pos hc5]
    rw [show A + off + 6 - (A + off + 6 - 6 + 0) = 6 from by omega]
    rw [show A + off + 6 - (A + off + 6 - 6 + 1) = 5 from by omega]
    rw [show A + off + 6 - (A + off + 6 - 6 + 2) = 4 from by omega]
    rw [show A + off + 6 - (A + off + 6 - 6 + 3) = 3 from by omega]
    rw [show A + off + 6 - (A + off + 6 - 6 + 4) = 2 from by omega]
    rw [show A + off + 6 - (A + off + 6 - 6 + 5) = 1 from by omega]
    rw [bandVal6]
    rw [bandVal5]
    rw [bandVal4]
    rw [bandVal3]
    rw [bandVal2]
    rw [bandVal1]

/-- C3 witness: `size = 3·G` yields the suffix `[63, 63, 64]`. -/
theorem C3_witness :
    lastBytes (FastPoisonShadow 8 stdShadowOffset shadow0 0 24 0)
        (0 / 8 + stdShadowOffset + 24 / 8) (24 / 8)
      = List.drop (6 - 24 / 8) [62, 62, 62, 63, 63, 64] :=
  (C3_small_zero_suffix shadow0 (by decide) ⟨by decide, by decide⟩ (by decide)
    (by decide) (by decide) (by decide) (by decide)).1

/-- C8 witness: with `addr = 16`, `size = 0` and tag `5` the shadow byte at
the shadow offset is untouched. -/
theorem C8_witness :
    FastPoisonShadow 8 stdShadowOffset shadow0 16 0 5 stdShadowOffset
      = shadow0 stdShadowOffset :=
  C8_size_zero_noop shadow0 (by decide) ⟨by decide, by decide⟩ (by decide)
    (by decide) (by decide) stdShadowOffset

/-- Every tail-pattern byte lies in `[62, 64]`. -/
lemma tailVal_bounds (d : Nat) : 62 ≤ tailVal d ∧ tailVal d ≤ 64 := by
  unfold tailVal
  split_ifs <;> omega

/-- C2 (amended): for every granule-aligned range with tag `0` and
`size ≥ 7·G`, the last 7 shadow bytes of the range, read from low address to
high address, equal `[62, 62, 62, 62, 63, 63, 64]` — independent of the total
range size, with the highest-address byte equal to `64`.  (The claim's
six-element sequence `[62,62,62,63,63,64]` omits one of the four `62`
bytes.) -/
theorem C2_last7_pattern {G off addr size : Nat} (s : Shadow)
    (hG8 : 8 ≤ G) (hoff : ValidShadowOffset off) (ha : G ∣ addr)
    (hs : G ∣ size) (h7 : 7 * G ≤ size) (hW : addr + size ≤ W) :
    lastBytes (FastPoisonShadow G off s addr size 0)
        (addr / G + off + size / G) 7
      = [62, 62, 62, 62, 63, 63, 64] := by
  obtain ⟨hoff15, hoff61⟩ := hoff
  have hGpos : 0 < G := by omega
  have hpos : 0 < size := by omega
  obtain ⟨hbeg, hend, hN, hA61, hS1, hS61⟩ :=
    shadow_params hG8 hoff61 ha hs hpos hW
  have hS7 : 7 ≤ size / G := (Nat.le_div_iff_mul_le hGpos).2 h7
  have hend' : uadd (MEM_TO_SHADOW G off (usub (uadd addr size) G)) 1
      = addr / G + off + size / G := by
    rw [hend]
    ring
  have hN' : usub (addr / G + off + size / G) (addr / G + off) = size / G := by
    rw [show addr / G + off + size / G = addr / G + size / G + off by ring]
    exact hN
  clear hend hN
  generalize hAg : addr / G = A at hbeg hend' hN' hA61 ⊢
  generalize hSg : size / G = S at hend' hN' hS1 hS61 hS7 ⊢
  have htail := fun (x : Nat) =>
    fastPoisonTail_spec s hS1 (show 7 ≤ A + off + S by omega)
      (show A + off + S < W by rw [W_eq]; omega) x
  have hpt : ∀ x, A + off + S ≤ x + 7 → x < A + off + S →
      FastPoisonShadow G off s addr size 0 x = tailVal (A + off + S - x) := by
    intro x hx1 hx2
    simp only [FastPoisonShadow, hbeg, hend', hN']
    rw [if_neg (show ¬((0 : Nat) % 256 ≠ 0) from by omega)]
    by_cases h8 : 8 ≤ S
    · rw [if_pos h8]
      have hlw := fastPoisonLoop_writes LOOP_FUEL 3 (A + off) (A + off + S)
        (fastPoisonTail s (A + off + S) S) (by norm_num) (by omega)
        (show A + off + S < 2 ^ 63 by omega)
        (Or.inl (show 2 ^ 3 + (A + off) ≤ A + off + S by omega)) x
      rcases hlw with hcase | hcase
      · rw [hcase, htail x, show min S 7 = 7 from by omega,
          if_pos ⟨hx1, hx2⟩]
      · exact absurd hcase.2.2.2 (by omega)
    · rw [if_neg h8]
      rw [htail x, show min S 7 = 7 from by omega, if_pos ⟨hx1, hx2⟩]
  rw [show lastBytes (FastPoisonShadow G off s addr size 0) (A + off + S) 7
      = [FastPoisonShadow G off s addr size 0 (A + off + S - 7 + 0), FastPoisonShadow G off s addr size 0 (A + off + S - 7 + 1), FastPoisonShadow G off s addr size 0 (A + off + S - 7 + 2), FastPoisonShadow G off s addr size 0 (A + off + S - 7 + 3), FastPoisonShadow G off s addr size 0 (A + off + S - 7 + 4), FastPoisonShadow G off s addr size 0 (A + off + S - 7 + 5), FastPoisonShadow G off s addr size 0 (A + off + S - 7 + 6)] from rfl]
  rw [hpt (A + off + S - 7 + 0) (by omega) (by omega)]
  rw [hpt (A + off + S - 7 + 1) (by omega) (by omega)]
  rw [hpt (A + off + S - 7 + 2) (by omega) (by omega)]
  rw [hpt (A + off + S - 7 + 3) (by omega) (by omega)]
  rw [hpt (A + off + S - 7 + 4) (by omega) (by omega)]
  rw [hpt (A + off + S - 7 + 5) (by omega) (by omega)]
  rw [hpt (A + off + S - 7 + 6) (by omega) (by omega)]
  rw [show A + off + S - (A + off + S - 7 + 0) = 7 from by omega]
  rw [show A + off + S - (A + off + S - 7 + 1) = 6 from by omega]
  rw [show A + off + S - (A + off + S - 7 + 2) = 5 from by omega]
  rw [show A + off + S - (A + off + S - 7 + 3) = 4 from by omega]
  rw [show A + off + S - (A + off + S - 7 + 4) = 3 from by omega]
  rw [show A + off + S - (A + off + S - 7 + 5) = 2 from by omega]
  rw [show A + off + S - (A + off + S - 7 + 6) = 1 from by omega]
  rfl

/-- C2 counterexample: on an aligned 7-granule range the last 7 shadow bytes
are `[62,62,62,62,63,63,64]`, not the claimed six-element
`[62,62,62,63,63,64]`. -/
theorem C2_counterexample :
    lastBytes (FastPoisonShadow 8 stdShadowOffset shadow0 0 56 0)
        (0 / 8 + stdShadowOffset + 56 / 8) 7 ≠ [62, 62, 62, 63, 63, 64] := by
  decide

/-- C2 witness: the amended 7-byte pattern on a concrete 7-granule range. -/
theorem C2_witness :
    lastBytes (FastPoisonShadow 8 stdShadowOffset shadow0 0 56 0)
        (0 / 8 + stdShadowOffset + 56 / 8) 7 = [62, 62, 62, 62, 63, 63, 64] :=
  C2_last7_pattern shadow0 (by decide) ⟨by decide, by decide⟩ (by decide)
    (by decide) (by decide) (by decide)

/-- C4: for every granule-aligned range with tag `0` and `size ≥ 8·G` (granule
count within the wrap-free domain), the shadow prefix below the fixed tail is
filled in exponentially doubling blocks: for every `i ≥ 3`, every covered
position whose distance to the range end lies in `[2^i, 2^(i+1))` holds
`64 - i` — including the final partial block truncated at the range start. -/
theorem C4_doubling_blocks {G off addr size : Nat} (s : Shadow)
    (hG8 : 8 ≤ G) (hoff : ValidShadowOffset off) (ha : G ∣ addr)
    (hs : G ∣ size) (h8G : 8 * G ≤ size) (hW : addr + size ≤ W)
    (hbound : size / G ≤ off) (i a : Nat) (hi : 3 ≤ i)
    (hlo : addr / G + off ≤ a)
    (hblock_lo : 2 ^ i ≤ addr / G + off + size / G - a)
    (hblock_hi : addr / G + off + size / G - a < 2 ^ (i + 1)) :
    FastPoisonShadow G off s addr size 0 a = 64 - i := by
  have hGpos : 0 < G := by omega
  have hpos : 0 < size := by omega
  have hz := fastPoisonShadow_zero_spec s hG8 hoff ha hs hpos hW
    (show (0 : Nat) % 256 = 0 from rfl) hbound a
  generalize hSg : size / G = S at hz hblock_lo hblock_hi
  generalize hAg : addr / G = A at hz hlo hblock_lo hblock_hi
  have hp : 0 < 2 ^ i := pow_pos (by norm_num) i
  rw [hz, if_pos ⟨hlo, by omega⟩]
  exact bandVal_eq hblock_lo hblock_hi

/-- C4 witness: on a 16-granule range, block `i = 3` (distances 8..15) holds
`64 - 3 = 61`; here at distance 15. -/
theorem C4_witness :
    FastPoisonShadow 8 stdShadowOffset shadow0 0 128 0 (stdShadowOffset + 1)
      = 64 - 3 :=
  C4_doubling_blocks shadow0 (by decide) ⟨by decide, by decide⟩ (by decide)
    (by decide) (by decide) (by decide) (by decide) 3 (stdShadowOffset + 1)
    (by decide) (by decide) (by decide) (by decide)

/-- C6: for every granule-aligned range with tag `0` and `size > 0` (granule
count within the wrap-free domain), the stored shadow values are monotonically
non-decreasing toward the high-address end of the range. -/
theorem C6_monotone {G off addr size : Nat} (s : Shadow)
    (hG8 : 8 ≤ G) (hoff : ValidShadowOffset off) (ha : G ∣ addr)
    (hs : G ∣ size) (hpos : 0 < size) (hW : addr + size ≤ W)
    (hbound : size / G ≤ off) (x y : Nat)
    (hx : addr / G + off ≤ x) (hxy : x < y)
    (hy : y < addr / G + off + size / G) :
    FastPoisonShadow G off s addr size 0 x ≤
      FastPoisonShadow G off s addr size 0 y := by
  have hzx := fastPoisonShadow_zero_spec s hG8 hoff ha hs hpos hW
    (show (0 : Nat) % 256 = 0 from rfl) hbound x
  have hzy := fastPoisonShadow_zero_spec s hG8 hoff ha hs hpos hW
    (show (0 : Nat) % 256 = 0 from rfl) hbound y
  generalize hSg : size / G = S at hzx hzy hy
  generalize hAg : addr / G = A at hzx hzy hx hy
  rw [hzx, hzy, if_pos ⟨hx, by omega⟩, if_pos ⟨by omega, hy⟩]
  unfold bandVal
  exact Nat.sub_le_sub_left (Nat.log_mono_right (by omega)) 64

/-- C6 witness: on a 16-granule range the byte at the range start (`60`) is at
most the next byte (`61`). -/
theorem C6_witness :
    FastPoisonShadow 8 stdShadowOffset shadow0 0 128 0 stdShadowOffset ≤
      FastPoisonShadow 8 stdShadowOffset shadow0 0 128 0 (stdShadowOffset + 1) :=
  C6_monotone shadow0 (by decide) ⟨by decide, by decide⟩ (by decide)
    (by decide) (by decide) (by decide) (by decide) stdShadowOffset
    (stdShadowOffset + 1) (by decide) (by decide) (by decide)

/-- C10: for every granule-aligned range with `size > 0`, tag `0` and at most
`2 ^ 60` granules, every shadow byte changed by `FastPoisonShadow` receives a
nonzero value in `[1, 64]`: the zero-tag operation never stores the byte `0`
that the shadow convention defines as fully addressable. -/
theorem C10_zero_stores_nonzero {G off addr size : Nat} (s : Shadow)
    (hG8 : 8 ≤ G) (hoff : ValidShadowOffset off) (ha : G ∣ addr)
    (hs : G ∣ size) (hpos : 0 < size) (hW : addr + size ≤ W)
    (h60 : size / G ≤ 2 ^ 60) (a : Nat)
    (hne : FastPoisonShadow G off s addr size 0 a ≠ s a) :
    1 ≤ FastPoisonShadow G off s addr size 0 a ∧
      FastPoisonShadow G off s addr size 0 a ≤ 64 := by
  obtain ⟨hoff15, hoff61⟩ := hoff
  obtain ⟨hbeg, hend, hN, hA61, hS1, hS61⟩ :=
    shadow_params hG8 hoff61 ha hs hpos hW
  have hend' : uadd (MEM_TO_SHADOW G off (usub (uadd addr size) G)) 1
      = addr / G + off + size / G := by
    rw [hend]
    ring
  have hN' : usub (addr / G + off + size / G) (addr / G + off) = size / G := by
    rw [show addr / G + off + size / G = addr / G + size / G + off by ring]
    exact hN
  clear hend hN
  generalize hAg : addr / G = A at hbeg hend' hN' hA61
  generalize hSg : size / G = S at hend' hN' hS1 hS61 h60
  have htail := fun (x : Nat) =>
    fastPoisonTail_spec s hS1 (show 7 ≤ A + off + S by omega)
      (show A + off + S < W by rw [W_eq]; omega) x
  have htb := tailVal_bounds (A + off + S - a)
  simp only [FastPoisonShadow, hbeg, hend', hN'] at hne ⊢
  rw [if_neg (show ¬((0 : Nat) % 256 ≠ 0) from by omega)] at hne ⊢
  by_cases h8 : 8 ≤ S
  · rw [if_pos h8] at hne ⊢
    have hlw := fastPoisonLoop_writes LOOP_FUEL 3 (A + off) (A + off + S)
      (fastPoisonTail s (A + off + S) S) (by norm_num) (by omega)
      (show A + off + S < 2 ^ 63 by omega)
      (Or.inl (show 2 ^ 3 + (A + off) ≤ A + off + S by omega)) a
    rcases hlw with hcase | hcase
    · rw [hcase] at hne ⊢
      rw [htail a] at hne ⊢
      by_cases hreg : A + off + S ≤ a + min S 7 ∧ a < A + off + S
      · rw [if_pos hreg] at hne ⊢
        omega
      · rw [if_neg hreg] at hne
        exact absurd rfl hne
    · exact ⟨hcase.1, by omega⟩
  · rw [if_neg h8] at hne ⊢
    rw [htail a] at hne ⊢
    by_cases hreg : A + off + S ≤ a + min S 7 ∧ a < A + off + S
    · rw [if_pos hreg] at hne ⊢
      omega
    · rw [if_neg hreg] at hne
      exact absurd rfl hne

/-- C10 witness: on a 16-granule range the byte at the range start changes
from `0` to `60 ∈ [1, 64]`. -/
theorem C10_witness :
    1 ≤ FastPoisonShadow 8 stdShadowOffset shadow0 0 128 0 stdShadowOffset ∧
      FastPoisonShadow 8 stdShadowOffset shadow0 0 128 0 stdShadowOffset ≤ 64 :=
  C10_zero_stores_nonzero shadow0 (by decide) ⟨by decide, by decide⟩
    (by decide) (by decide) (by decide) (by decide) (by decide) stdShadowOffset
    (by decide)

/-- The identity transformer is a masked write. -/
lemma oblivious_id : Oblivious (fun s => s) :=
  ⟨fun _ => none, fun _ _ => rfl⟩

/-- A single byte store is a masked write. -/
lemma oblivious_upd (p v : Nat) : Oblivious (fun s => upd s p v) := by
  refine ⟨fun a => if a = p then some (v % 256) else none, fun s a => ?_⟩
  simp only [upd]
  split_ifs <;> rfl

/-- A memset is a masked write. -/
lemma oblivious_memset (beg v n : Nat) :
    Oblivious (fun s => memset s beg v n) := by
  refine ⟨fun a => if beg ≤ a ∧ a < beg + n then some (v % 256) else none,
    fun s a => ?_⟩
  simp only [memset]
  split_ifs <;> rfl

/-- Masked writes compose. -/
lemma oblivious_comp {f h : Shadow → Shadow} (hf : Oblivious f)
    (hh : Oblivious h) : Oblivious (fun s => f (h s)) := by
  obtain ⟨gf, hgf⟩ := hf
  obtain ⟨gh, hgh⟩ := hh
  refine ⟨fun a => (gf a).orElse (fun _ => gh a), fun s a => ?_⟩
  show f (h s) a = ((gf a).orElse fun _ => gh a).getD (s a)
  rw [hgf, hgh]
  cases gf a <;> rfl

/-- The tail `switch` is a masked write. -/
lemma oblivious_tail (p N : Nat) :
    Oblivious (fun s => fastPoisonTail s p N) := by
  rcases N with _ | _ | _ | _ | _ | _ | _ | m
  · exact oblivious_id
  · exact (oblivious_upd (usub p 1) 64)
  · exact (@oblivious_comp (fun t => upd t (usub p 1) 64) (fun t => upd (t) (usub p 2) 63) (oblivious_upd (usub p 1) 64) (oblivious_upd (usub p 2) 63))
  · exact (@oblivious_comp (fun t => upd t (usub p 1) 64) (fun t => upd (upd (t) (usub p 3) 63) (usub p 2) 63) (oblivious_upd (usub p 1) 64) (@oblivious_comp (fun t => upd t (usub p 2) 63) (fun t => upd (t) (usub p 3) 63) (oblivious_upd (usub p 2) 63) (oblivious_upd (usub p 3) 63)))
  · exact (@oblivious_comp (fun t => upd t (usub p 1) 64) (fun t => upd (upd (upd (t) (usub p 4) 62) (usub p 3) 63) (usub p 2) 63) (oblivious_upd (usub p 1) 64) (@oblivious_comp (fun t => upd t (usub p 2) 63) (fun t => upd (upd (t) (usub p 4) 62) (usub p 3) 63) (oblivious_upd (usub p 2) 63) (@oblivious_comp (fun t => upd t (usub p 3) 63) (fun t => upd (t) (usub p 4) 62) (oblivious_upd (usub p 3) 63) (oblivious_upd (usub p 4) 62))))
  · exact (@oblivious_comp (fun t => upd t (usub p 1) 64) (fun t => upd (upd (upd (upd (t) (usub p 5) 62) (usub p 4) 62) (usub p 3) 63) (usub p 2) 63) (oblivious_upd (usub p 1) 64) (@oblivious_comp (fun t => upd t (usub p 2) 63) (fun t => upd (upd (upd (t) (usub p 5) 62) (usub p 4) 62) (usub p 3) 63) (oblivious_upd (usub p 2) 63) (@oblivious_comp (fun t => upd t (usub p 3) 63) (fun t => upd (upd (t) (usub p 5) 62) (usub p 4) 62) (oblivious_upd (usub p 3) 63) (@oblivious_comp (fun t => upd t (usub p 4) 62) (fun t => upd (t) (usub p 5) 62) (oblivious_upd (usub p 4) 62) (oblivious_upd (usub p 5) 62)))))
  · exact (@oblivious_comp (fun t => upd t (usub p 1) 64) (fun t => upd (upd (upd (upd (upd (t) (usub p 6) 62) (usub p 5) 62) (usub p 4) 62) (usub p 3) 63) (usub p 2) 63) (oblivious_upd (usub p 1) 64) (@oblivious_comp (fun t => upd t (usub p 2) 63) (fun t => upd (upd (upd (upd (t) (usub p 6) 62) (usub p 5) 62) (usub p 4) 62) (usub p 3) 63) (oblivious_upd (usub p 2) 63) (@oblivious_comp (fun t => upd t (usub p 3) 63) (fun t => upd (upd (upd (t) (usub p 6) 62) (usub p 5) 62) (usub p 4) 62) (oblivious_upd (usub p 3) 63) (@oblivious_comp (fun t => upd t (usub p 4) 62) (fun t => upd (upd (t) (usub p 6) 62) (usub p 5) 62) (oblivious_upd (usub p 4) 62) (@oblivious_comp (fun t => upd t (usub p 5) 62) (fun t => upd (t) (usub p 6) 62) (oblivious_upd (usub p 5) 62) (oblivious_upd (usub p 6) 62))))))
  · exact (@oblivious_comp (fun t => upd t (usub p 1) 64) (fun t => upd (upd (upd (upd (upd (upd (t) (usub p 7) 62) (usub p 6) 62) (usub p 5) 62) (usub p 4) 62) (usub p 3) 63) (usub p 2) 63) (oblivious_upd (usub p 1) 64) (@oblivious_comp (fun t => upd t (usub p 2) 63) (fun t => upd (upd (upd (upd (upd (t) (usub p 7) 62) (usub p 6) 62) (usub p 5) 62) (usub p 4) 62) (usub p 3) 63) (oblivious_upd (usub p 2) 63) (@oblivious_comp (fun t => upd t (usub p 3) 63) (fun t => upd (upd (upd (upd (t) (usub p 7) 62) (usub p 6) 62) (usub p 5) 62) (usub p 4) 62) (oblivious_upd (usub p 3) 63) (@oblivious_comp (fun t => upd t (usub p 4) 62) (fun t => upd (upd (upd (t) (usub p 7) 62) (usub p 6) 62) (usub p 5) 62) (oblivious_upd (usub p 4) 62) (@oblivious_comp (fun t => upd t (usub p 5) 62) (fun t => upd (upd (t) (usub p 7) 62) (usub p 6) 62) (oblivious_upd (usub p 5) 62) (@oblivious_comp (fun t => upd t (usub p 6) 62) (fun t => upd (t) (usub p 7) 62) (oblivious_upd (usub p 6) 62) (oblivious_upd (usub p 7) 62)))))))

/-- The doubling loop is a masked write. -/
lemma oblivious_loop (fuel : Nat) : ∀ (sbeg send i : Nat),
    Oblivious (fun s => fastPoisonLoop fuel s sbeg send i) := by
  induction fuel with
  | zero =>
    intro sbeg send i
    exact oblivious_id
  | succ fuel ih =>
    intro sbeg send i
    by_cases hc : uadd (usub send (2 ^ (i + 1) % W)) 1 ≤ sbeg
    · have he : (fun s => fastPoisonLoop (fuel + 1) s sbeg send i)
          = fun s => memset s sbeg (msVal i)
              (usub (uadd (usub send (2 ^ i % W)) 1) sbeg) := by
        funext s
        simp only [fastPoisonLoop, if_pos hc]
      rw [he]
      exact oblivious_memset _ _ _
    · have he : (fun s => fastPoisonLoop (fuel + 1) s sbeg send i)
          = fun s => fastPoisonLoop fuel
              (memset s (uadd (usub send (2 ^ (i + 1) % W)) 1) (msVal i)
                (2 ^ i % W)) sbeg send (i + 1) := by
        funext s
        simp only [fastPoisonLoop, if_neg hc]
      rw [he]
      exact @oblivious_comp (fun t => fastPoisonLoop fuel t sbeg send (i + 1))
        (fun t => memset t (uadd (usub send (2 ^ (i + 1) % W)) 1) (msVal i)
          (2 ^ i % W)) (ih sbeg send (i + 1)) (oblivious_memset _ _ _)

/-- `FastPoisonShadow` is a masked write: the byte it leaves at each address
is either a fixed value determined by the arguments or the old content. -/
lemma oblivious_fastPoisonShadow (G off addr size value : Nat) :
    Oblivious (fun s => FastPoisonShadow G off s addr size value) := by
  by_cases hv : value % 256 ≠ 0
  · have he : (fun s => FastPoisonShadow G off s addr size value)
        = fun s => memset s (MEM_TO_SHADOW G off addr)
            (if value % 256 ≤ 7 then 72 - value % 256 else value % 256)
            (usub (uadd (MEM_TO_SHADOW G off (usub (uadd addr size) G)) 1)
              (MEM_TO_SHADOW G off addr)) := by
      funext s
      simp only [FastPoisonShadow, if_pos hv]
    rw [he]
    exact oblivious_memset _ _ _
  · by_cases h8 : 8 ≤ usub
        (uadd (MEM_TO_SHADOW G off (usub (uadd addr size) G)) 1)
        (MEM_TO_SHADOW G off addr)
    · have he : (fun s => FastPoisonShadow G off s addr size value)
          = fun s => fastPoisonLoop LOOP_FUEL
              (fastPoisonTail s
                (uadd (MEM_TO_SHADOW G off (usub (uadd addr size) G)) 1)
                (usub (uadd (MEM_TO_SHADOW G off (usub (uadd addr size) G)) 1)
                  (MEM_TO_SHADOW G off addr)))
              (MEM_TO_SHADOW G off addr)
              (uadd (MEM_TO_SHADOW G off (usub (uadd addr size) G)) 1) 3 := by
        funext s
        simp only [FastPoisonShadow, if_neg hv, if_pos h8]
      rw [he]
      exact @oblivious_comp
        (fun t => fastPoisonLoop LOOP_FUEL t (MEM_TO_SHADOW G off addr)
          (uadd (MEM_TO_SHADOW G off (usub (uadd addr size) G)) 1) 3)
        (fun s => fastPoisonTail s
          (uadd (MEM_TO_SHADOW G off (usub (uadd addr size) G)) 1)
          (usub (uadd (MEM_TO_SHADOW G off (usub (uadd addr size) G)) 1)
            (MEM_TO_SHADOW G off addr)))
        (oblivious_loop LOOP_FUEL _ _ _) (oblivious_tail _ _)
    · have he : (fun s => FastPoisonShadow G off s addr size value)
          = fun s => fastPoisonTail s
              (uadd (MEM_TO_SHADOW G off (usub (uadd addr size) G)) 1)
              (usub (uadd (MEM_TO_SHADOW G off (usub (uadd addr size) G)) 1)
                (MEM_TO_SHADOW G off addr)) := by
        funext s
        simp only [FastPoisonShadow, if_neg hv, if_neg h8]
      rw [he]
      exact oblivious_tail _ _

/-- C7: for every range and every tag (zero or nonzero), calling
`FastPoisonShadow` twice in succession with identical arguments leaves the
shadow in exactly the same final state as calling it once. -/
theorem C7_idempotent (G off : Nat) (s : Shadow)
    (addr size value a : Nat) :
    FastPoisonShadow G off (FastPoisonShadow G off s addr size value)
        addr size value a = FastPoisonShadow G off s addr size value a := by
  obtain ⟨g, hg⟩ := oblivious_fastPoisonShadow G off addr size value
  have hg' : ∀ (t : Shadow) (x : Nat),
      FastPoisonShadow G off t addr size value x = (g x).getD (t x) := hg
  rw [hg' (FastPoisonShadow G off s addr size value) a, hg' s a]
  cases g a <;> rfl

/-- The redzone loop never touches shadow addresses below its write
pointer. -/
lemma prrLoop_frame {G : Nat} {pp : Bool} {size rz value : Nat} (fuel : Nat) :
    ∀ (s : Shadow) (i sh a : Nat), a < sh →
      prrLoop fuel G pp size rz value s i sh a = s a := by
  induction fuel with
  | zero =>
    intro s i sh a ha
    rfl
  | succ fuel ih =>
    intro s i sh a ha
    simp only [prrLoop]
    by_cases hc : i < rz
    · rw [if_pos hc]
      rw [ih _ (i + G) (sh + 1) a (by omega)]
      simp only [upd_apply]
      rw [if_neg (by omega)]
    · rw [if_neg hc]

/-- Per-granule description of the redzone loop: the byte written for the
granule at offset `i + G * k` follows the three-way classification of the
source (`fully live` / `fully redzone` / `straddling`). -/
lemma prrLoop_spec {G : Nat} {pp : Bool} {size rz value : Nat} (fuel : Nat) :
    ∀ (s : Shadow) (i sh k : Nat), rz ≤ i + G * fuel → i + G * k < rz →
      prrLoop fuel G pp size rz value s i sh (sh + k) =
        (if i + G * k + G ≤ size then 0
         else if size ≤ i + G * k then (if G = 128 then 255 else value)
         else if pp then G - (size &&& (G - 1)) else 0) % 256 := by
  induction fuel with
  | zero =>
    intro s i sh k hfuel hk
    exact absurd hk (by omega)
  | succ fuel ih =>
    intro s i sh k hfuel hk
    simp only [prrLoop]
    rw [if_pos (show i < rz by omega)]
    rcases k with _ | k
    · rw [prrLoop_frame fuel _ (i + G) (sh + 1) (sh + 0) (by omega)]
      simp only [upd_apply]
      rw [if_pos (by omega)]
      simp only [Nat.mul_zero, Nat.add_zero]
    · have hky : sh + (k + 1) = sh + 1 + k := by omega
      rw [hky]
      have hG1 : G * (fuel + 1) = G * fuel + G := by ring
      have hG2 : G * (k + 1) = G * k + G := by ring
      rw [ih _ (i + G) (sh + 1) k (by omega) (by omega)]
      rw [show i + G + G * k = i + G * (k + 1) from by omega]

/-- C5: for every call of `FastPoisonShadowPartialRightRedzone` and every
granule offset `i = G * k` in `[0, redzone_size)`: if `i + G ≤ size` the
shadow byte is `0`; if `i ≥ size` it is `0xff` when `G = 128` and the tag
otherwise; if `i < size < i + G` it is `0` with partial-boundary reporting
off and `G - (size mod G)` with it on. -/
theorem C5_redzone_encoding {G off : Nat} {pp : Bool} (s : Shadow)
    {addr size rz value k : Nat} (hG : ∃ g, 3 ≤ g ∧ g ≤ 7 ∧ G = 2 ^ g)
    (hv : value < 256) (hk : G * k < rz) :
    FastPoisonShadowPartialRightRedzone G off pp s addr size rz value
        (MEM_TO_SHADOW G off addr + k) =
      if G * k + G ≤ size then 0
      else if size ≤ G * k then (if G = 128 then 255 else value)
      else if pp then G - size % G else 0 := by
  obtain ⟨g, hg3, hg7, hG⟩ := hG
  have hGpos : 0 < G := by
    rw [hG]
    positivity
  have hG128 : G ≤ 128 := by
    rw [hG]
    calc (2 : Nat) ^ g ≤ 2 ^ 7 := Nat.pow_le_pow_right (by norm_num) hg7
      _ = 128 := by norm_num
  have hmask : size &&& (G - 1) = size % G := by
    rw [hG]
    exact Nat.and_pow_two_sub_one_eq_mod size g
  have hfuel : rz ≤ 0 + G * rz := by
    have := Nat.le_mul_of_pos_left rz hGpos
    omega
  simp only [FastPoisonShadowPartialRightRedzone]
  rw [prrLoop_spec rz s 0 (MEM_TO_SHADOW G off addr) k hfuel
    (show 0 + G * k < rz by omega)]
  rw [hmask]
  simp only [Nat.zero_add]
  generalize size % G = m
  split_ifs <;> omega

/-- C5 witness: `liveSize = 5`, `redzoneSize = 2·G`, `G = 8`: the boundary
granule is `3` with partial reporting on, `0` with it off, and the second,
fully-redzone granule gets the tag (here `200`). -/
theorem C5_witness :
    FastPoisonShadowPartialRightRedzone 8 stdShadowOffset true shadow0
        0 5 16 200 (MEM_TO_SHADOW 8 stdShadowOffset 0 + 0) =
      (if 8 * 0 + 8 ≤ 5 then 0
       else if 5 ≤ 8 * 0 then (if 8 = 128 then 255 else 200)
       else if true then 8 - 5 % 8 else 0) ∧
    FastPoisonShadowPartialRightRedzone 8 stdShadowOffset false shadow0
        0 5 16 200 (MEM_TO_SHADOW 8 stdShadowOffset 0 + 0) =
      (if 8 * 0 + 8 ≤ 5 then 0
       else if 5 ≤ 8 * 0 then (if 8 = 128 then 255 else 200)
       else if false then 8 - 5 % 8 else 0) ∧
    FastPoisonShadowPartialRightRedzone 8 stdShadowOffset true shadow0
        0 5 16 200 (MEM_TO_SHADOW 8 stdShadowOffset 0 + 1) =
      (if 8 * 1 + 8 ≤ 5 then 0
       else if 5 ≤ 8 * 1 then (if 8 = 128 then 255 else 200)
       else if true then 8 - 5 % 8 else 0) :=
  ⟨C5_redzone_encoding shadow0 ⟨3, by norm_num, by norm_num, by norm_num⟩
      (by norm_num) (by norm_num),
    C5_redzone_encoding shadow0 ⟨3, by norm_num, by norm_num, by norm_num⟩
      (by norm_num) (by norm_num),
    C5_redzone_encoding shadow0 ⟨3, by norm_num, by norm_num, by norm_num⟩
      (by norm_num) (by norm_num)⟩

/-- C9: in debug builds `FastPoisonShadow`'s assertion fails exactly when the
tag is nonzero and the poisoning toggle is off, and
`FastPoisonShadowPartialRightRedzone`'s exactly when the toggle is off; in
optimized builds neither check fires. -/
theorem C9_assert_aborts (canPoison : Bool) (value : Nat) (hv : value < 256) :
    (fastPoisonShadowAborts true canPoison value = true ↔
      (value ≠ 0 ∧ canPoison = false)) ∧
    (fastPoisonPRRAborts true canPoison = true ↔ canPoison = false) ∧
    fastPoisonShadowAborts false canPoison value = false ∧
    fastPoisonPRRAborts false canPoison = false := by
  have hvm : value % 256 = value := Nat.mod_eq_of_lt hv
  unfold fastPoisonShadowAborts fastPoisonPRRAborts dcheckFails
  rw [hvm]
  cases canPoison <;> simp

/-- C9 witness: with the toggle off, tag `5` trips the debug assertion of
`FastPoisonShadow` and the debug assertion of the redzone encoder, and
neither fires in optimized builds. -/
theorem C9_witness :
    ((fastPoisonShadowAborts true false 5 = true ↔ (5 ≠ 0 ∧ false = false)) ∧
      (fastPoisonPRRAborts true false = true ↔ false = false) ∧
      fastPoisonShadowAborts false false 5 = false ∧
      fastPoisonPRRAborts false false = false) :=
  C9_assert_aborts false 5 (by norm_num)

end AsanPoisoning
